import Mathlib

set_option maxRecDepth 8000

/-! Shallow embedding of src/src/network_address.cc (vsql-network-address).

Byte buffers are `List Nat` with entries in [0,256).  The C structs
IPv4Network (address : uint32, then netmask, family, flags : uint8) and
IPv6Network (address : uint8[16], then netmask, family, flags : uint8) are
serialized in declared field order with no padding — 7 and 19 bytes as the
source documents — and the uint32 address is laid out most-significant byte
first ("network byte order" per the source comment).  The codec, the
extractors and the comparator all read records through this one layout, so
the embedding is consistent with the machine behaviour up to the fixed
byte-order convention.

The C scanning primitives are modeled after glibc on LP64:
`sscanf` conversions skip leading white space, accept an optional sign,
convert like `strtoul`/`strtol` (saturating at the `unsigned long`/`long`
bounds) and then truncate to the 32-bit destination; a literal character in
a format matches exactly one input character; `%63[^/]` grabs at most 63
characters different from a slash and fails on an empty grab; `strtoul`
with base 16 also accepts a `0x` prefix.  A C left shift whose count
reaches the width of the operand is undefined behaviour; the one place
where the source can reach such a shift is modeled with an `Option` that
returns `none` there.  Fallible C functions that report failure through a
flag/zero-length protocol are modeled with `Option`. -/

/-- C `isspace`: space and the characters with codes 9..13. -/
def isSpaceC (c : Char) : Bool :=
  c.toNat == 32 || (9 ≤ c.toNat && c.toNat ≤ 13)

/-- Decimal digit predicate, as character-code comparisons. -/
def isDigitC (c : Char) : Bool :=
  48 ≤ c.toNat && c.toNat ≤ 57

/-- Hexadecimal digit predicate (0-9, a-f, A-F). -/
def isHexDigitC (c : Char) : Bool :=
  (48 ≤ c.toNat && c.toNat ≤ 57) || (97 ≤ c.toNat && c.toNat ≤ 102) ||
    (65 ≤ c.toNat && c.toNat ≤ 70)

/-- Value of one hexadecimal digit character. -/
def hexDigitVal (c : Char) : Nat :=
  if c.toNat ≤ 57 then c.toNat - 48
  else if c.toNat ≤ 70 then c.toNat - 55
  else c.toNat - 87

/-- Accumulated value of a string of decimal digits. -/
def decVal (l : List Char) : Nat :=
  l.foldl (fun a c => a * 10 + (c.toNat - 48)) 0

/-- Accumulated value of a string of hexadecimal digits. -/
def hexVal (l : List Char) : Nat :=
  l.foldl (fun a c => a * 16 + hexDigitVal c) 0

/-- `strtoul` saturation bound: ULONG_MAX on LP64. -/
def usat (v : Nat) : Nat := min v (2 ^ 64 - 1)

/-- `strtoul` applies unsigned negation when the subject had a minus sign. -/
def applyNeg (neg : Bool) (v : Nat) : Nat :=
  if neg then (2 ^ 64 - v % 2 ^ 64) % 2 ^ 64 else v

/-- Digit phase of a `%u` conversion (base 10, glibc): convert the digits,
saturate at ULONG_MAX, negate if signed, truncate to `unsigned int`. -/
def scan_u_digits (neg : Bool) (m : List Char) : Option (Nat × List Char) :=
  let ds := m.takeWhile isDigitC
  if ds = [] then none
  else some (applyNeg neg (usat (decVal ds)) % 2 ^ 32, m.dropWhile isDigitC)

/-- One `%u` conversion of `sscanf`: skip white space, optional sign,
decimal digits.  `none` is a matching failure (no digits). -/
def scanU (l : List Char) : Option (Nat × List Char) :=
  match l.dropWhile isSpaceC with
  | [] => none
  | c :: t =>
    if c = '-' then scan_u_digits true t
    else if c = '+' then scan_u_digits false t
    else scan_u_digits false (c :: t)

/-- Embedding of `parse_ipv4_address`: `sscanf(s, "%u.%u.%u.%u", ...)`
must convert all four groups, then each group must be at most 255; the
packed `uint32` keeps the first group in the most significant byte.
Characters left over after the fourth converted group are not examined. -/
def parse_ipv4_address (s : String) : Option Nat :=
  match scanU s.data with
  | none => none
  | some (a, r1) =>
    match r1 with
    | '.' :: r1a =>
      match scanU r1a with
      | none => none
      | some (b, r2) =>
        match r2 with
        | '.' :: r2a =>
          match scanU r2a with
          | none => none
          | some (c, r3) =>
            match r3 with
            | '.' :: r3a =>
              match scanU r3a with
              | none => none
              | some (d, _) =>
                if 255 < a || 255 < b || 255 < c || 255 < d then none
                else some ((a <<< 24) ||| (b <<< 16) ||| (c <<< 8) ||| d)
            | _ => none
        | _ => none
    | _ => none

/-- Saturate, negate and finish one `strtoul(..., 16)` conversion. -/
def hexFinish (neg : Bool) (v : Nat) : Nat := applyNeg neg (usat v)

/-- Does the subject sequence start with a `0x`/`0X` prefix marker? -/
def has_0x (m : List Char) : Bool :=
  match m with
  | c0 :: c1 :: _ => c0 == '0' && (c1 == 'x' || c1 == 'X')
  | _ => false

/-- Digit phase of `strtoul(p, &end, 16)`: an optional `0x`/`0X` prefix
(which, when not followed by a hex digit, leaves a subject of just `0`
with the end pointer after that `0`), then hex digits.  `none` means the
end pointer equals the start (no conversion). -/
def scan_hex_digits (neg : Bool) (m : List Char) : Option (Nat × List Char) :=
  if has_0x m then
    let t := m.drop 2
    let ds := t.takeWhile isHexDigitC
    if ds = [] then some (hexFinish neg 0, m.drop 1)
    else some (hexFinish neg (hexVal ds), t.dropWhile isHexDigitC)
  else
    let ds := m.takeWhile isHexDigitC
    if ds = [] then none
    else some (hexFinish neg (hexVal ds), m.dropWhile isHexDigitC)

/-- `strtoul(p, &end, 16)`: white space, optional sign, hex subject. -/
def scanHex16 (l : List Char) : Option (Nat × List Char) :=
  match l.dropWhile isSpaceC with
  | [] => none
  | c :: t =>
    if c = '-' then scan_hex_digits true t
    else if c = '+' then scan_hex_digits false t
    else scan_hex_digits false (c :: t)

/-- The group-scanning loop shared by the three loops of
`parse_ipv6_address`: scan up to `fuel` colon-separated groups with
`strtoul(..., 16)`, rejecting a group whose value exceeds 0xFFFF or whose
terminator is neither a colon nor the end of the string.  When the group
bound is reached with input left over, the loop exits and the remaining
input is not examined (exactly as the C `while` condition does). -/
def parse_groups : Nat → List Char → List Nat → Option (List Nat)
  | _, [], acc => some acc
  | 0, _, acc => some acc
  | fuel + 1, l, acc =>
    match scanHex16 l with
    | none => none
    | some (v, rest) =>
      if 65535 < v then none
      else
        match rest with
        | [] => some (acc ++ [v])
        | ':' :: tail => parse_groups fuel tail (acc ++ [v])
        | _ => none

/-- Index of the first occurrence of `::` (the C `strstr(addr_str, "::")`). -/
def find_double_colon : List Char → Option Nat
  | [] => none
  | [_] => none
  | a :: b :: t =>
    if a = ':' ∧ b = ':' then some 0
    else (find_double_colon (b :: t)).map (· + 1)

/-- Lay out left-side and right-side 16-bit groups into the 16 address
bytes: left groups from word 0 upward, right groups ending at word 7,
implied words zero; each word is split high byte first. -/
def ipv6_bytes (lv rv : List Nat) : List Nat :=
  (List.range 16).map fun i =>
    let w := i / 2
    let v :=
      if w < lv.length then lv.getD w 0
      else if 8 - rv.length ≤ w then rv.getD (w - (8 - rv.length)) 0
      else 0
    if i % 2 = 0 then (v >>> 8) &&& 255 else v &&& 255

/-- Embedding of `parse_ipv6_address`: split at the first `::` when
present, scan each side as up to 8 groups and require left+right ≤ 7;
without `::` scan up to 8 groups and require exactly 8. -/
def parse_ipv6_address (s : String) : Option (List Nat) :=
  let l := s.data
  match find_double_colon l with
  | some i =>
    match (if i = 0 then some [] else parse_groups 8 (l.take i) []) with
    | none => none
    | some lv =>
      let rl := l.drop (i + 2)
      match (if rl = [] then some [] else parse_groups 8 rl []) with
      | none => none
      | some rv =>
        if 7 < lv.length + rv.length then none
        else some (ipv6_bytes lv rv)
  | none =>
    match parse_groups 8 l [] with
    | none => none
    | some pv =>
      if pv.length ≠ 8 then none else some (ipv6_bytes pv [])

/-- 32-bit left shift of the C expression `x << k`.  A shift count of 32
or more is undefined behaviour in C and yields `none`. -/
def shl32 (x k : Nat) : Option Nat :=
  if k < 32 then some ((x <<< k) % 2 ^ 32) else none

/-- 32-bit bitwise complement; for `x < 2 ^ 32` subtracting from the
all-ones word flips every bit, so this is exactly the C `~` on uint32. -/
def not32 (x : Nat) : Nat := 4294967295 - x

/-- Embedding of `prefix_to_netmask_ipv4`.  On every path that reaches
the shift the count `32 - p` lies in [1,31], so the shift is defined and
the function is total. -/
def prefix_to_netmask_ipv4 (p : Nat) : Nat :=
  if p = 0 then 0
  else if 32 ≤ p then 4294967295
  else not32 ((1 <<< (32 - p)) % 2 ^ 32 - 1)

/-- Embedding of `prefix_to_hostmask_ipv4`.  For `p = 0` the C source
evaluates `1u << 32`, a shift by the full operand width. -/
def prefix_to_hostmask_ipv4 (p : Nat) : Option Nat :=
  if 32 ≤ p then some 0
  else (shl32 1 (32 - p)).map fun t => t - 1

/-- Embedding of `validate_cidr_network` (IPv4 strict validation).  Note
the unconditional `true` at netmask 0, as in the source. -/
def validate_cidr_network (address netmask : Nat) : Bool :=
  if 32 < netmask then false
  else if netmask = 0 then true
  else
    let mask := not32 ((1 <<< (32 - netmask)) % 2 ^ 32 - 1)
    address &&& not32 mask == 0

/-- Embedding of `prefix_to_netmask_ipv6`, byte by byte: full bytes 0xFF,
one partial byte, the rest zero. -/
def prefix_to_netmask_ipv6 (p : Nat) : List Nat :=
  (List.range 16).map fun i =>
    if i < p / 8 then 255
    else if i = p / 8 ∧ 0 < p % 8 then (255 <<< (8 - p % 8)) % 256
    else 0

/-- Embedding of `prefix_to_hostmask_ipv6`: zero up to the partial byte,
the complement pattern there, 0xFF afterwards. -/
def prefix_to_hostmask_ipv6 (p : Nat) : List Nat :=
  (List.range 16).map fun i =>
    if i < p / 8 then 0
    else if i = p / 8 ∧ 0 < p % 8 then 255 - ((255 <<< (8 - p % 8)) % 256)
    else 255

/-- Embedding of `validate_cidr_network_ipv6`; again netmask 0 is
accepted unconditionally. -/
def validate_cidr_network_ipv6 (address : List Nat) (netmask : Nat) : Bool :=
  if 128 < netmask then false
  else if netmask = 0 then true
  else
    let fb := netmask / 8
    let rb := netmask % 8
    let partialOk : Bool :=
      if 0 < rb then address.getD fb 0 &&& (255 - ((255 <<< (8 - rb)) % 256)) == 0
      else true
    let fb2 := if 0 < rb then fb + 1 else fb
    partialOk && ((List.range 16).all fun i => decide (i < fb2) || (address.getD i 0 == 0))

/-- memcpy of an `IPv4Network` struct into its 7-byte record: four
address bytes most significant first, then netmask, family, flags. -/
def serialize4 (address netmask family flags : Nat) : List Nat :=
  [address / 16777216 % 256, address / 65536 % 256, address / 256 % 256,
   address % 256, netmask, family, flags]

/-- memcpy of record bytes 0..3 back into the uint32 address field. -/
def deserAddr4 (b : List Nat) : Nat :=
  b.getD 0 0 * 16777216 + b.getD 1 0 * 65536 + b.getD 2 0 * 256 + b.getD 3 0

/-- `snprintf("%u.%u.%u.%u", ...)` over the four address bytes. -/
def format_ipv4_address (address : Nat) : String :=
  Nat.repr ((address >>> 24) &&& 255) ++ "." ++ Nat.repr ((address >>> 16) &&& 255) ++ "." ++
    Nat.repr ((address >>> 8) &&& 255) ++ "." ++ Nat.repr (address &&& 255)

/-- Lower-case hex digit character. -/
def hexChar (d : Nat) : Char := Char.ofNat (if d < 10 then 48 + d else 87 + d)

/-- `%02x` of one byte. -/
def hex2 (b : Nat) : String := String.mk [hexChar (b / 16 % 16), hexChar (b % 16)]

/-- `format_ipv6_address`: eight colon-separated groups of two `%02x`
bytes each, never abbreviated. -/
def format_ipv6_address (address : List Nat) : String :=
  hex2 (address.getD 0 0) ++ hex2 (address.getD 1 0) ++ ":" ++
    hex2 (address.getD 2 0) ++ hex2 (address.getD 3 0) ++ ":" ++
    hex2 (address.getD 4 0) ++ hex2 (address.getD 5 0) ++ ":" ++
    hex2 (address.getD 6 0) ++ hex2 (address.getD 7 0) ++ ":" ++
    hex2 (address.getD 8 0) ++ hex2 (address.getD 9 0) ++ ":" ++
    hex2 (address.getD 10 0) ++ hex2 (address.getD 11 0) ++ ":" ++
    hex2 (address.getD 12 0) ++ hex2 (address.getD 13 0) ++ ":" ++
    hex2 (address.getD 14 0) ++ hex2 (address.getD 15 0)

/-- Truncation of a `long` to a C `int` (two's complement, as on every
supported target). -/
def toInt32 (v : Int) : Int :=
  let m := v % 2 ^ 32
  if 2 ^ 31 ≤ m then m - 2 ^ 32 else m

/-- Digit phase of a `%d` conversion: convert like `strtol` (saturating
at the `long` bounds), then truncate to `int`. -/
def scan_d_digits (neg : Bool) (m : List Char) : Option (Int × List Char) :=
  let ds := m.takeWhile isDigitC
  if ds = [] then none
  else
    let v : Int :=
      if neg then -(Int.ofNat (min (decVal ds) (2 ^ 63)))
      else Int.ofNat (min (decVal ds) (2 ^ 63 - 1))
    some (toInt32 v, m.dropWhile isDigitC)

/-- One `%d` conversion of `sscanf`. -/
def scanD (l : List Char) : Option (Int × List Char) :=
  match l.dropWhile isSpaceC with
  | [] => none
  | c :: t =>
    if c = '-' then scan_d_digits true t
    else if c = '+' then scan_d_digits false t
    else scan_d_digits false (c :: t)

/-- The shared `sscanf(from, "%63[^/]/%d", addr_str, &netmask)` of the
two encoders: grab at most 63 non-slash characters (failing on an empty
grab), match one literal slash, convert one `%d`.  `none` means fewer
than two successful conversions. -/
def scan_addr_mask (l : List Char) : Option (List Char × Int) :=
  let grabbed := (l.takeWhile fun c => c != '/').take 63
  if grabbed = [] then none
  else
    match l.drop grabbed.length with
    | '/' :: rest =>
      match scanD rest with
      | some (v, _) => some (grabbed, v)
      | none => none
    | _ => none

/-- Embedding of `encode_cidr` (strict variant): the two-conversion scan
is mandatory, family is decided by trying IPv4 first, the prefix is
range-checked for the family, and strict validation gates the record.
Family tag 2 = IPv4, 10 = IPv6; flags byte 1 = ADDR_FLAG_CIDR. -/
def encode_cidr (buffer_size : Nat) (s : String) : Option (List Nat) :=
  if buffer_size < 7 then none
  else
    match scan_addr_mask s.data with
    | none => none
    | some (addr, netmask) =>
      match parse_ipv4_address (String.mk addr) with
      | some a =>
        if netmask < 0 ∨ 32 < netmask then none
        else if validate_cidr_network a netmask.toNat then
          some (serialize4 a netmask.toNat 2 1)
        else none
      | none =>
        if buffer_size < 19 then none
        else
          match parse_ipv6_address (String.mk addr) with
          | some bytes =>
            if netmask < 0 ∨ 128 < netmask then none
            else if validate_cidr_network_ipv6 bytes netmask.toNat then
              some (bytes ++ [netmask.toNat, 10, 1])
            else none
          | none => none

/-- Common body of `encode_inet` after the address text and the scanned
netmask (or the -1 sentinel) are fixed: family by trying IPv4 first, the
sentinel replaced by the family's full width, range check, no strict
validation; flags byte 2 = ADDR_FLAG_INET. -/
def encode_inet_core (buffer_size : Nat) (addr : List Char) (netmask : Int) :
    Option (List Nat) :=
  match parse_ipv4_address (String.mk addr) with
  | some a =>
    let nm := if netmask = -1 then 32 else netmask
    if nm < 0 ∨ 32 < nm then none
    else some (serialize4 a nm.toNat 2 2)
  | none =>
    if buffer_size < 19 then none
    else
      match parse_ipv6_address (String.mk addr) with
      | some bytes =>
        let nm := if netmask = -1 then 128 else netmask
        if nm < 0 ∨ 128 < nm then none
        else some (bytes ++ [nm.toNat, 10, 2])
      | none => none

/-- Embedding of `encode_inet` (permissive variant): when the
two-conversion scan fails the whole input (truncated to 63 characters by
`strncpy`) is taken as the address and the netmask keeps its -1
sentinel, which later defaults to the family's full width. -/
def encode_inet (buffer_size : Nat) (s : String) : Option (List Nat) :=
  if buffer_size < 7 then none
  else
    match scan_addr_mask s.data with
    | some (addr, netmask) => encode_inet_core buffer_size addr netmask
    | none => encode_inet_core buffer_size (s.data.take 63) (-1)

/-- Embedding of `decode_cidr`: probe the family byte at offset 5 first
(the IPv4 position), then, if the buffer is long enough, the byte at
offset 17 (the IPv6 position); always print the prefix. -/
def decode_cidr (to_size : Nat) (b : List Nat) : Option String :=
  if b.length < 7 then none
  else if b.getD 5 0 = 2 then
    let res := format_ipv4_address (deserAddr4 b) ++ "/" ++ Nat.repr (b.getD 4 0)
    if to_size < res.length + 1 then none else some res
  else if 19 ≤ b.length ∧ b.getD 17 0 = 10 then
    let res := format_ipv6_address (b.take 16) ++ "/" ++ Nat.repr (b.getD 16 0)
    if to_size < res.length + 1 then none else some res
  else none

/-- Embedding of `decode_inet`: like `decode_cidr` but a full-width
prefix (32 or 128) is not printed. -/
def decode_inet (to_size : Nat) (b : List Nat) : Option String :=
  if b.length < 7 then none
  else if b.getD 5 0 = 2 then
    let addr := format_ipv4_address (deserAddr4 b)
    let res := if b.getD 4 0 = 32 then addr else addr ++ "/" ++ Nat.repr (b.getD 4 0)
    if to_size < res.length + 1 then none else some res
  else if 19 ≤ b.length ∧ b.getD 17 0 = 10 then
    let addr := format_ipv6_address (b.take 16)
    let res := if b.getD 16 0 = 128 then addr else addr ++ "/" ++ Nat.repr (b.getD 16 0)
    if to_size < res.length + 1 then none else some res
  else none

/-- Embedding of `get_address_family`: 0 for an undersized buffer, else
the value of the offset-5 probe, else the offset-17 probe, else 0. -/
def get_address_family (b : List Nat) : Nat :=
  if b.length < 7 then 0
  else if b.getD 5 0 = 2 then 2
  else if 19 ≤ b.length ∧ b.getD 17 0 = 10 then 10
  else 0

/-- `memcmp` over byte lists of equal length, with the sign already
collapsed to -1/0/1 per byte step (the callers only use the sign). -/
def memcmp_bytes : List Nat → List Nat → Int
  | x :: xs, y :: ys =>
    if x < y then -1 else if y < x then 1 else memcmp_bytes xs ys
  | _, _ => 0

/-- Embedding of `cmp_cidr`: width first (shorter record sorts first),
then the address field, then the netmask byte; records of equal length
that are neither 7 nor 19 bytes wide fall back to a raw `memcmp`. -/
def cmp_cidr (d1 d2 : List Nat) : Int :=
  if d1.length ≠ d2.length then (if d1.length < d2.length then -1 else 1)
  else if d1.length = 7 then
    let a1 := deserAddr4 d1
    let a2 := deserAddr4 d2
    if a1 ≠ a2 then (if a1 < a2 then -1 else 1)
    else if d1.getD 4 0 ≠ d2.getD 4 0 then (if d1.getD 4 0 < d2.getD 4 0 then -1 else 1)
    else 0
  else if d1.length = 19 then
    let ac := memcmp_bytes (d1.take 16) (d2.take 16)
    if ac ≠ 0 then (if ac < 0 then -1 else 1)
    else if d1.getD 16 0 ≠ d2.getD 16 0 then (if d1.getD 16 0 < d2.getD 16 0 then -1 else 1)
    else 0
  else
    let r := memcmp_bytes d1 d2
    if r = 0 then 0 else if r < 0 then -1 else 1

/-- Embedding of `cmp_inet`: literally a call to `cmp_cidr`. -/
def cmp_inet (d1 d2 : List Nat) : Int := cmp_cidr d1 d2

/-- Embedding of `inet_network`: mask the address with the netmask of
its prefix and tag the result as a strict (CIDR) record. -/
def inet_network (b : List Nat) : Option (List Nat) :=
  if b.length < 7 then none
  else if get_address_family b = 2 then
    let m := b.getD 4 0
    some (serialize4 (deserAddr4 b &&& prefix_to_netmask_ipv4 m) m 2 1)
  else if get_address_family b = 10 ∧ 19 ≤ b.length then
    let m := b.getD 16 0
    let nm := prefix_to_netmask_ipv6 m
    some (((List.range 16).map fun i => b.getD i 0 &&& nm.getD i 0) ++ [m, 10, 1])
  else none

/-- Embedding of `cidr_set_masklen`: range-check the new prefix for the
record's family, re-mask the address with the new prefix's netmask and
tag the result as a strict (CIDR) record. -/
def cidr_set_masklen (b : List Nat) (new_masklen : Int) : Option (List Nat) :=
  if b.length < 7 then none
  else if get_address_family b = 2 then
    if new_masklen < 0 ∨ 32 < new_masklen then none
    else
      some (serialize4 (deserAddr4 b &&& prefix_to_netmask_ipv4 new_masklen.toNat)
        new_masklen.toNat 2 1)
  else if get_address_family b = 10 ∧ 19 ≤ b.length then
    if new_masklen < 0 ∨ 128 < new_masklen then none
    else
      let nm := prefix_to_netmask_ipv6 new_masklen.toNat
      some (((List.range 16).map fun i => b.getD i 0 &&& nm.getD i 0) ++
        [new_masklen.toNat, 10, 1])
  else none

/-- Specification-level reading of the strict invariant, independent of
the validators: interpreting the record's address as one big-endian
number, the low `width - netmask` bits (the host bits) are zero. -/
def bytesToNat (l : List Nat) : Nat := l.foldl (fun a b => a * 256 + b) 0

/-- A strict record has all host bits zero: the bits of its address
beyond the prefix length vanish. -/
def strictHostBitsZero (r : List Nat) : Prop :=
  if r.length = 7 then deserAddr4 r % 2 ^ (32 - r.getD 4 0) = 0
  else if r.length = 19 then bytesToNat (r.take 16) % 2 ^ (128 - r.getD 16 0) = 0
  else False

instance (r : List Nat) : Decidable (strictHostBitsZero r) := by
  unfold strictHostBitsZero; split
  · exact inferInstance
  · split
    · exact inferInstance
    · exact inferInstance

/-- Join a list of groups with single colons, the shape of a canonical
group-separated IPv6 literal. -/
def colon_join : List (List Char) → List Char
  | [] => []
  | [g] => g
  | g :: gs => g ++ ':' :: colon_join gs

/-- A well-formed IPv4 network record with variant byte `fl`: the
serialization of an in-range address and prefix with the IPv4 family
tag. -/
def WF4 (fl : Nat) (r : List Nat) : Prop :=
  ∃ a m, a < 2 ^ 32 ∧ m ≤ 32 ∧ r = serialize4 a m 2 fl

/-- A well-formed IPv6 network record with variant byte `fl`: sixteen
address bytes followed by an in-range prefix, the IPv6 family tag and
the variant byte. -/
def WF19 (fl : Nat) (r : List Nat) : Prop :=
  ∃ bytes m, bytes.length = 16 ∧ (∀ x ∈ bytes, x < 256) ∧ m ≤ 128 ∧
    r = bytes ++ [m, 10, fl]

/-! ## Claim theorems: concrete evaluations -/

/-- C1: the claim says the decode operations and the family extractor
determine the family from the encoded byte-length alone, so that every
IPv6-width (19-byte) record is decoded as IPv6.  The code instead probes
the family byte at the IPv4 offset 5 first; the well-formed IPv6 records
of `0:0:2::/64` (permissive and strict variants) have address byte 5
equal to 2 = AF_INET, so both decoders render them as the IPv4 value
`0.0.0.0/0` and the family extractor reports family 2 (IPv4). -/
theorem decode_confuses_ipv6_width_record :
    encode_inet 19 "0:0:2::/64" =
      some [0, 0, 0, 0, 0, 2, 0, 0, 0, 0, 0, 0, 0, 0, 0, 0, 64, 10, 2] ∧
    ([0, 0, 0, 0, 0, 2, 0, 0, 0, 0, 0, 0, 0, 0, 0, 0, 64, 10, 2] : List Nat).length = 19 ∧
    decode_inet 64 [0, 0, 0, 0, 0, 2, 0, 0, 0, 0, 0, 0, 0, 0, 0, 0, 64, 10, 2] =
      some "0.0.0.0/0" ∧
    get_address_family [0, 0, 0, 0, 0, 2, 0, 0, 0, 0, 0, 0, 0, 0, 0, 0, 64, 10, 2] = 2 ∧
    encode_cidr 19 "0:0:2::/64" =
      some [0, 0, 0, 0, 0, 2, 0, 0, 0, 0, 0, 0, 0, 0, 0, 0, 64, 10, 1] ∧
    decode_cidr 64 [0, 0, 0, 0, 0, 2, 0, 0, 0, 0, 0, 0, 0, 0, 0, 0, 64, 10, 1] =
      some "0.0.0.0/0" := by
  refine ⟨by decide, by decide, by decide, by decide, by decide, by decide⟩

/-- C2: the claim says every strict-tagged record the system can build
has all host bits zero, and indeed `192.168.1.5/24` is rejected while
`192.168.1.0/24` is accepted, and `inet_network` / `cidr_set_masklen`
re-zero host bits.  But the strict validator accepts netmask 0
unconditionally, so `encode_cidr` accepts `192.168.1.5/0` and stores a
strict record whose 32 host bits are not zero. -/
theorem strict_variant_host_bits :
    encode_cidr 19 "192.168.1.5/24" = none ∧
    encode_cidr 19 "192.168.1.0/24" = some [192, 168, 1, 0, 24, 2, 1] ∧
    strictHostBitsZero [192, 168, 1, 0, 24, 2, 1] ∧
    inet_network [192, 168, 1, 5, 24, 2, 2] = some [192, 168, 1, 0, 24, 2, 1] ∧
    cidr_set_masklen [192, 168, 1, 0, 24, 2, 1] 16 = some [192, 168, 0, 0, 16, 2, 1] ∧
    strictHostBitsZero [192, 168, 0, 0, 16, 2, 1] ∧
    validate_cidr_network 3232235781 0 = true ∧
    encode_cidr 19 "192.168.1.5/0" = some [192, 168, 1, 5, 0, 2, 1] ∧
    ¬ strictHostBitsZero [192, 168, 1, 5, 0, 2, 1] := by
  refine ⟨by decide, by decide, by decide, by decide, by decide, by decide, by decide,
    by decide, by decide⟩

/-- C9: permissive encoding of `192.168.1.5/24` succeeds with a 7-byte
record holding address 192.168.1.5 (big-endian value 3232235781) and
prefix 24, and the display decoder renders it back as the same text. -/
theorem permissive_encode_decode_192_168_1_5 :
    encode_inet 19 "192.168.1.5/24" = some [192, 168, 1, 5, 24, 2, 2] ∧
    ([192, 168, 1, 5, 24, 2, 2] : List Nat).length = 7 ∧
    deserAddr4 [192, 168, 1, 5, 24, 2, 2] = 3232235781 ∧
    ([192, 168, 1, 5, 24, 2, 2] : List Nat).getD 4 0 = 24 ∧
    decode_inet 64 [192, 168, 1, 5, 24, 2, 2] = some "192.168.1.5/24" := by
  refine ⟨by decide, by decide, by decide, by decide, by decide⟩

/-- C10: the INET comparator is extensionally the CIDR comparator — the
source body of `cmp_inet` is a single call to `cmp_cidr`. -/
theorem cmp_inet_eq_cmp_cidr : ∀ d1 d2 : List Nat, cmp_inet d1 d2 = cmp_cidr d1 d2 :=
  fun _ _ => rfl

/-- C5 counterexample: the strict encoder does mandate a separator — on
the valid network address `192.168.1.0` without `/` it fails instead of
defaulting the prefix, while the permissive encoder accepts the same
text. -/
theorem encode_cidr_rejects_missing_slash :
    encode_cidr 19 "192.168.1.0" = none ∧
    encode_inet 19 "192.168.1.0" = some [192, 168, 1, 0, 32, 2, 2] := by
  refine ⟨by decide, by decide⟩

/-- C6 counterexample: the out-of-range prefix -1 is not rejected by the
permissive encoder — scanning `1.2.3.4` followed by a slash and `-1` yields the prefix -1,
which collides with the "no netmask" sentinel and is silently replaced
by the default 32. -/
theorem encode_inet_accepts_minus_one_prefix :
    scan_addr_mask ("1.2.3.4/-1".data) = some ("1.2.3.4".data, -1) ∧
    encode_inet 19 "1.2.3.4/-1" = some [1, 2, 3, 4, 32, 2, 2] := by
  refine ⟨by decide, by decide⟩

/-- C7 counterexample: the IPv4 parser accepts `1.2.3.4x` (value packed
from 1.2.3.4, the trailing `x` never examined) although the claim says
trailing characters after the fourth group are rejected. -/
theorem parse_ipv4_accepts_trailing_junk :
    parse_ipv4_address "1.2.3.4x" = some 16909060 := by decide

/-- C8 counterexample: the IPv6 parser accepts nine colon-separated
groups — `1:2:3:4:5:6:7:8:9` parses as `1:2:3:4:5:6:7:8`, the ninth
group never examined — although the claim requires exactly eight groups
when no `::` is present. -/
theorem parse_ipv6_accepts_nine_groups :
    parse_ipv6_address "1:2:3:4:5:6:7:8:9" =
      some [0, 1, 0, 2, 0, 3, 0, 4, 0, 5, 0, 6, 0, 7, 0, 8] := by decide

/-- C3: the mask complement laws.  For the IPv4 family the complement
laws hold for every prefix from 1 to 32, and the netmask is all-zero at
prefix 0; but the IPv4 hostmask at prefix 0 evaluates the C expression
`1u << 32` — a shift by the full operand width, which the claim says
must not happen — instead of producing the all-ones mask, so that
boundary case is undefined.  The IPv6 byte-wise masks satisfy the
complement laws at every prefix 0..128 including both boundaries. -/
theorem mask_complement_laws :
    prefix_to_hostmask_ipv4 0 = none ∧
    prefix_to_netmask_ipv4 0 = 0 ∧
    (∀ p : Nat, p < 33 → 0 < p →
      (prefix_to_hostmask_ipv4 p).map
        (fun h => (prefix_to_netmask_ipv4 p ||| h, prefix_to_netmask_ipv4 p &&& h)) =
        some (4294967295, 0)) ∧
    (∀ p : Nat, p < 129 → ∀ i : Nat, i < 16 →
      (prefix_to_netmask_ipv6 p).getD i 0 ||| (prefix_to_hostmask_ipv6 p).getD i 0 = 255 ∧
      (prefix_to_netmask_ipv6 p).getD i 0 &&& (prefix_to_hostmask_ipv6 p).getD i 0 = 0) ∧
    prefix_to_netmask_ipv6 0 = List.replicate 16 0 ∧
    prefix_to_hostmask_ipv6 0 = List.replicate 16 255 ∧
    prefix_to_netmask_ipv6 128 = List.replicate 16 255 ∧
    prefix_to_hostmask_ipv6 128 = List.replicate 16 0 := by
  refine ⟨by decide, by decide, by decide, by decide, by decide, by decide, by decide,
    by decide⟩

/-- Witness for the mask complement laws at the prefix 24 and byte 3. -/
theorem mask_complement_laws_witness :
    ((24 : Nat) < 33 ∧ (0 : Nat) < 24 ∧
      (prefix_to_hostmask_ipv4 24).map
        (fun h => (prefix_to_netmask_ipv4 24 ||| h, prefix_to_netmask_ipv4 24 &&& h)) =
        some (4294967295, 0)) ∧
    ((20 : Nat) < 129 ∧ (3 : Nat) < 16 ∧
      (prefix_to_netmask_ipv6 20).getD 3 0 ||| (prefix_to_hostmask_ipv6 20).getD 3 0 = 255 ∧
      (prefix_to_netmask_ipv6 20).getD 3 0 &&& (prefix_to_hostmask_ipv6 20).getD 3 0 = 0) :=
  ⟨⟨by decide, by decide, mask_complement_laws.2.2.1 24 (by decide) (by decide)⟩,
   ⟨by decide, by decide, mask_complement_laws.2.2.2.1 20 (by decide) 3 (by decide)⟩⟩

/-! ## Scanning lemmas -/

theorem takeWhile_append_all {p : Char → Bool} {g r : List Char}
    (h : ∀ c ∈ g, p c = true) : (g ++ r).takeWhile p = g ++ r.takeWhile p := by
  induction g with
  | nil => simp
  | cons c t ih =>
    simp only [List.cons_append, List.takeWhile_cons, h c (by simp)]
    simp [ih fun x hx => h x (by simp [hx])]

theorem dropWhile_append_all {p : Char → Bool} {g r : List Char}
    (h : ∀ c ∈ g, p c = true) : (g ++ r).dropWhile p = r.dropWhile p := by
  induction g with
  | nil => simp
  | cons c t ih =>
    simp only [List.cons_append, List.dropWhile_cons, h c (by simp), if_true]
    exact ih fun x hx => h x (by simp [hx])

theorem takeWhile_head_false {p : Char → Bool} {r : List Char}
    (h : ∀ c, r.head? = some c → p c = false) : r.takeWhile p = [] := by
  cases r with
  | nil => rfl
  | cons c t => simp [List.takeWhile_cons, h c rfl]

theorem dropWhile_head_false {p : Char → Bool} {r : List Char}
    (h : ∀ c, r.head? = some c → p c = false) : r.dropWhile p = r := by
  cases r with
  | nil => rfl
  | cons c t => simp [List.dropWhile_cons, h c rfl]

theorem digit_not_space {c : Char} (h : isDigitC c = true) : isSpaceC c = false := by
  simp only [isDigitC, Bool.and_eq_true, decide_eq_true_eq] at h
  have h32 : c.toNat ≠ 32 := by omega
  have h13 : ¬ c.toNat ≤ 13 := by omega
  simp [isSpaceC, h32, h13]

theorem digit_ne_dash {c : Char} (h : isDigitC c = true) : ¬ c = '-' := by
  intro e; subst e; exact absurd h (by decide)

theorem digit_ne_plus {c : Char} (h : isDigitC c = true) : ¬ c = '+' := by
  intro e; subst e; exact absurd h (by decide)

/-- A successful `%u` conversion on a digit group followed by a
non-digit remainder converts exactly the group. -/
theorem scanU_spec {g r : List Char} (hne : g ≠ [])
    (hg : ∀ c ∈ g, isDigitC c = true)
    (hr : ∀ c, r.head? = some c → isDigitC c = false)
    (hv : decVal g < 2 ^ 32) :
    scanU (g ++ r) = some (decVal g, r) := by
  obtain ⟨c, t, rfl⟩ := List.exists_cons_of_ne_nil hne
  have hc : isDigitC c = true := hg c (by simp)
  have hsp : ((c :: t) ++ r).dropWhile isSpaceC = c :: (t ++ r) := by
    simp [List.dropWhile_cons, digit_not_space hc]
  have htw : ((c :: t) ++ r).takeWhile isDigitC = c :: t := by
    rw [takeWhile_append_all hg, takeWhile_head_false hr, List.append_nil]
  have hdw : ((c :: t) ++ r).dropWhile isDigitC = r := by
    rw [dropWhile_append_all hg, dropWhile_head_false hr]
  rw [scanU, hsp]
  simp only [digit_ne_dash hc, if_false, digit_ne_plus hc, ite_false]
  rw [show c :: (t ++ r) = (c :: t) ++ r from rfl]
  rw [scan_u_digits, htw, hdw]
  simp only [applyNeg, Bool.false_eq_true, if_false, usat, Nat.min_def]
  rw [if_pos (le_trans (le_of_lt hv) (by norm_num))]
  have hv2 : decVal (c :: t) < 4294967296 := by norm_num at hv; exact hv
  simp [Nat.mod_eq_of_lt hv2]

theorem head_cons_not_digit {x : Char} (hx : isDigitC x = false) (X : List Char) :
    ∀ c, ((x :: X).head? = some c) → isDigitC c = false := fun c hc => by
  simp only [List.head?_cons, Option.some.injEq] at hc; subst hc; exact hx

/-- The whole `%u.%u.%u.%u` scan on four digit groups followed by a
non-digit remainder: acceptance is decided purely by the range check on
the four converted values. -/
theorem parse_ipv4_split (g1 g2 g3 g4 rest : List Char)
    (h1 : g1 ≠ []) (h2 : g2 ≠ []) (h3 : g3 ≠ []) (h4 : g4 ≠ [])
    (hd1 : ∀ c ∈ g1, isDigitC c = true) (hd2 : ∀ c ∈ g2, isDigitC c = true)
    (hd3 : ∀ c ∈ g3, isDigitC c = true) (hd4 : ∀ c ∈ g4, isDigitC c = true)
    (hrest : ∀ c, rest.head? = some c → isDigitC c = false)
    (hv1 : decVal g1 < 2 ^ 32) (hv2 : decVal g2 < 2 ^ 32)
    (hv3 : decVal g3 < 2 ^ 32) (hv4 : decVal g4 < 2 ^ 32) :
    parse_ipv4_address
        (String.mk (g1 ++ '.' :: (g2 ++ '.' :: (g3 ++ '.' :: (g4 ++ rest))))) =
      if 255 < decVal g1 || 255 < decVal g2 || 255 < decVal g3 || 255 < decVal g4 then none
      else some ((decVal g1 <<< 24) ||| (decVal g2 <<< 16) ||| (decVal g3 <<< 8) |||
        decVal g4) := by
  have hdot : isDigitC '.' = false := by decide
  have e1 := scanU_spec h1 hd1 (head_cons_not_digit hdot (g2 ++ '.' :: (g3 ++ '.' :: (g4 ++ rest)))) hv1
  have e2 := scanU_spec h2 hd2 (head_cons_not_digit hdot (g3 ++ '.' :: (g4 ++ rest))) hv2
  have e3 := scanU_spec h3 hd3 (head_cons_not_digit hdot (g4 ++ rest)) hv3
  have e4 := scanU_spec h4 hd4 hrest hv4
  simp only [parse_ipv4_address]
  simp only [e1, e2, e3, e4]

/-- C7 (amended): every string beginning with four dot-separated decimal
digit groups, each of value at most 255, and continuing with anything
that does not start with a digit, is accepted with the four group values
packed most significant first — in particular the exact four-group
grammar (empty remainder) is accepted; and a string of that shape whose
first four group values are not all within [0,255] (but each below 2^32,
so that no wrap-around occurs) is rejected.  Rejection of trailing
characters after the fourth group does not hold: see the counterexample. -/
theorem ipv4_parser_grammar :
    (∀ g1 g2 g3 g4 rest : List Char,
      g1 ≠ [] → g2 ≠ [] → g3 ≠ [] → g4 ≠ [] →
      (∀ c ∈ g1, isDigitC c = true) → (∀ c ∈ g2, isDigitC c = true) →
      (∀ c ∈ g3, isDigitC c = true) → (∀ c ∈ g4, isDigitC c = true) →
      (∀ c, rest.head? = some c → isDigitC c = false) →
      decVal g1 ≤ 255 → decVal g2 ≤ 255 → decVal g3 ≤ 255 → decVal g4 ≤ 255 →
      parse_ipv4_address
          (String.mk (g1 ++ '.' :: (g2 ++ '.' :: (g3 ++ '.' :: (g4 ++ rest))))) =
        some ((decVal g1 <<< 24) ||| (decVal g2 <<< 16) ||| (decVal g3 <<< 8) |||
          decVal g4)) ∧
    (∀ g1 g2 g3 g4 rest : List Char,
      g1 ≠ [] → g2 ≠ [] → g3 ≠ [] → g4 ≠ [] →
      (∀ c ∈ g1, isDigitC c = true) → (∀ c ∈ g2, isDigitC c = true) →
      (∀ c ∈ g3, isDigitC c = true) → (∀ c ∈ g4, isDigitC c = true) →
      (∀ c, rest.head? = some c → isDigitC c = false) →
      decVal g1 < 2 ^ 32 → decVal g2 < 2 ^ 32 → decVal g3 < 2 ^ 32 → decVal g4 < 2 ^ 32 →
      (255 < decVal g1 ∨ 255 < decVal g2 ∨ 255 < decVal g3 ∨ 255 < decVal g4) →
      parse_ipv4_address
          (String.mk (g1 ++ '.' :: (g2 ++ '.' :: (g3 ++ '.' :: (g4 ++ rest))))) = none) := by
  constructor
  · intro g1 g2 g3 g4 rest h1 h2 h3 h4 hd1 hd2 hd3 hd4 hrest hb1 hb2 hb3 hb4
    rw [parse_ipv4_split g1 g2 g3 g4 rest h1 h2 h3 h4 hd1 hd2 hd3 hd4 hrest
      (by norm_num; omega) (by norm_num; omega) (by norm_num; omega) (by norm_num; omega)]
    rw [if_neg]
    simp only [Bool.or_eq_true, decide_eq_true_eq, not_or]
    omega
  · intro g1 g2 g3 g4 rest h1 h2 h3 h4 hd1 hd2 hd3 hd4 hrest hb1 hb2 hb3 hb4 hout
    rw [parse_ipv4_split g1 g2 g3 g4 rest h1 h2 h3 h4 hd1 hd2 hd3 hd4 hrest hb1 hb2 hb3 hb4]
    rw [if_pos]
    simp only [Bool.or_eq_true, decide_eq_true_eq]
    omega

/-- Witness for the IPv4 grammar theorem at the literal `1.9.2.50`. -/
theorem ipv4_parser_grammar_witness :
    parse_ipv4_address
        (String.mk (['1'] ++ '.' :: (['9'] ++ '.' :: (['2'] ++ '.' ::
          (['5', '0'] ++ ([] : List Char)))))) =
      some ((decVal ['1'] <<< 24) ||| (decVal ['9'] <<< 16) ||| (decVal ['2'] <<< 8) |||
        decVal ['5', '0']) :=
  ipv4_parser_grammar.1 ['1'] ['9'] ['2'] ['5', '0'] [] (by decide) (by decide) (by decide)
    (by decide) (by decide) (by decide) (by decide) (by decide)
    (fun c hc => nomatch hc) (by decide) (by decide) (by decide) (by decide)

theorem digit_ne_slash {c : Char} (h : isDigitC c = true) : ¬ c = '/' := by
  intro e; subst e; exact absurd h (by decide)

/-- On an input containing no slash the two-conversion scan of the
encoders fails: either the grab is empty, or the grab ends at the end of
the input or at character 63, never at a literal slash. -/
theorem scan_addr_mask_no_slash {l : List Char} (h : ∀ c ∈ l, ¬ c = '/') :
    scan_addr_mask l = none := by
  have ht : l.takeWhile (fun c => c != '/') = l := by
    induction l with
    | nil => rfl
    | cons c t ih =>
      have hc : (c != '/') = true := by simpa using h c (by simp)
      simp only [List.takeWhile_cons, hc, if_true]
      rw [ih fun x hx => h x (by simp [hx])]
  simp only [scan_addr_mask, ht]
  split
  · rfl
  · split
    · rename_i rest heq
      exfalso
      have hmem : '/' ∈ l := List.mem_of_mem_drop (heq ▸ List.mem_cons_self '/' rest)
      exact h _ hmem rfl
    · rfl

/-- C5 (amended): the strict encoder does mandate the separator — every
input without a slash fails with a parse error in `encode_cidr`; only
the permissive `encode_inet` defaults a missing prefix, to the full
address width (32 for IPv4, shown here for every in-range dotted-quad
literal of at most 63 characters). -/
theorem encode_cidr_mandates_slash :
    (∀ s : String, (∀ c ∈ s.data, ¬ c = '/') → encode_cidr 19 s = none) ∧
    (∀ g1 g2 g3 g4 : List Char,
      g1 ≠ [] → g2 ≠ [] → g3 ≠ [] → g4 ≠ [] →
      (∀ c ∈ g1, isDigitC c = true) → (∀ c ∈ g2, isDigitC c = true) →
      (∀ c ∈ g3, isDigitC c = true) → (∀ c ∈ g4, isDigitC c = true) →
      decVal g1 ≤ 255 → decVal g2 ≤ 255 → decVal g3 ≤ 255 → decVal g4 ≤ 255 →
      (g1 ++ '.' :: (g2 ++ '.' :: (g3 ++ '.' :: g4))).length ≤ 63 →
      encode_inet 19 (String.mk (g1 ++ '.' :: (g2 ++ '.' :: (g3 ++ '.' :: g4)))) =
        some (serialize4 ((decVal g1 <<< 24) ||| (decVal g2 <<< 16) |||
          (decVal g3 <<< 8) ||| decVal g4) 32 2 2)) := by
  constructor
  · intro s hs
    simp [encode_cidr, scan_addr_mask_no_slash hs]
  · intro g1 g2 g3 g4 h1 h2 h3 h4 hd1 hd2 hd3 hd4 hb1 hb2 hb3 hb4 hlen
    have hns : ∀ c ∈ g1 ++ '.' :: (g2 ++ '.' :: (g3 ++ '.' :: g4)), ¬ c = '/' := by
      intro c hc
      simp only [List.mem_append, List.mem_cons] at hc
      rcases hc with hc | hc | hc
      · exact digit_ne_slash (hd1 c hc)
      · subst hc; decide
      · rcases hc with hc | hc | hc
        · exact digit_ne_slash (hd2 c hc)
        · subst hc; decide
        · rcases hc with hc | hc | hc
          · exact digit_ne_slash (hd3 c hc)
          · subst hc; decide
          · exact digit_ne_slash (hd4 c hc)
    have hp := ipv4_parser_grammar.1 g1 g2 g3 g4 [] h1 h2 h3 h4 hd1 hd2 hd3 hd4
      (fun c hc => nomatch hc) hb1 hb2 hb3 hb4
    rw [List.append_nil] at hp
    have htake : (g1 ++ '.' :: (g2 ++ '.' :: (g3 ++ '.' :: g4))).take 63 =
        g1 ++ '.' :: (g2 ++ '.' :: (g3 ++ '.' :: g4)) := List.take_of_length_le hlen
    simp only [encode_inet, scan_addr_mask_no_slash hns]
    rw [if_neg (by norm_num)]
    rw [htake]
    simp only [encode_inet_core, hp]
    norm_num
    rfl

/-- Witness for the slash-mandate theorem: `encode_cidr` rejects the
plain host literal `9.9.9.9`, and `encode_inet` accepts it with the
defaulted prefix 32. -/
theorem encode_cidr_mandates_slash_witness :
    encode_cidr 19 "9.9.9.9" = none ∧
    encode_inet 19 (String.mk (['9'] ++ '.' :: (['9'] ++ '.' :: (['9'] ++ '.' :: ['9'])))) =
      some (serialize4 ((decVal ['9'] <<< 24) ||| (decVal ['9'] <<< 16) |||
        (decVal ['9'] <<< 8) ||| decVal ['9']) 32 2 2) :=
  ⟨encode_cidr_mandates_slash.1 "9.9.9.9" (by decide),
   encode_cidr_mandates_slash.2 ['9'] ['9'] ['9'] ['9'] (by decide) (by decide) (by decide)
     (by decide) (by decide) (by decide) (by decide) (by decide) (by decide) (by decide)
     (by decide) (by decide) (by decide)⟩

/-- C6 (amended): when the encoders' scan extracts an address part and a
prefix, and the address determines a family (IPv4 by the first attempt,
else IPv6), an out-of-range prefix for that family is always rejected by
the strict encoder, and rejected by the permissive encoder in every case
except the single value -1, which collides with the permissive encoder's
"no prefix given" sentinel and silently defaults (see the
counterexample). -/
theorem out_of_range_masklen_rejected :
    ∀ (s : String) (addr : List Char) (p : Int),
      scan_addr_mask s.data = some (addr, p) →
      (((parse_ipv4_address (String.mk addr)).isSome = true → (p < 0 ∨ 32 < p) →
        encode_cidr 19 s = none ∧ (¬ p = -1 → encode_inet 19 s = none)) ∧
       (parse_ipv4_address (String.mk addr) = none →
        (parse_ipv6_address (String.mk addr)).isSome = true → (p < 0 ∨ 128 < p) →
        encode_cidr 19 s = none ∧ (¬ p = -1 → encode_inet 19 s = none))) := by
  intro s addr p hscan
  constructor
  · intro hip hout
    obtain ⟨a, ha⟩ := Option.isSome_iff_exists.mp hip
    constructor
    · simp only [encode_cidr, hscan, ha]
      rw [if_neg (by norm_num), if_pos hout]
    · intro hne
      simp only [encode_inet, hscan, encode_inet_core, ha]
      rw [if_neg (by norm_num), if_neg hne, if_pos hout]
  · intro hip4 hip6 hout
    obtain ⟨b6, hb6⟩ := Option.isSome_iff_exists.mp hip6
    constructor
    · simp only [encode_cidr, hscan, hip4, hb6]
      rw [if_neg (by norm_num), if_neg (by norm_num), if_pos hout]
    · intro hne
      simp only [encode_inet, hscan, encode_inet_core, hip4, hb6]
      rw [if_neg (by norm_num), if_neg (by norm_num), if_neg hne, if_pos hout]

/-- Witness for the out-of-range prefix theorem at `1.2.3.4` with the
prefix 33 and at `::1` with the prefix 129. -/
theorem out_of_range_masklen_rejected_witness :
    (encode_cidr 19 "1.2.3.4/33" = none ∧
      (¬ (33 : Int) = -1 → encode_inet 19 "1.2.3.4/33" = none)) ∧
    (encode_cidr 19 "::1/129" = none ∧
      (¬ (129 : Int) = -1 → encode_inet 19 "::1/129" = none)) :=
  ⟨(out_of_range_masklen_rejected "1.2.3.4/33" "1.2.3.4".data 33 (by decide)).1
      (by decide) (by norm_num),
   (out_of_range_masklen_rejected "::1/129" "::1".data 129 (by decide)).2
      (by decide) (by decide) (by norm_num)⟩

theorem hex_not_space {c : Char} (h : isHexDigitC c = true) : isSpaceC c = false := by
  simp only [isHexDigitC, Bool.or_eq_true, Bool.and_eq_true, decide_eq_true_eq] at h
  have h32 : c.toNat ≠ 32 := by omega
  have h13 : ¬ c.toNat ≤ 13 := by omega
  simp [isSpaceC, h32, h13]

theorem hex_ne_char {c x : Char} (h : isHexDigitC c = true) (hx : isHexDigitC x = false) :
    ¬ c = x := fun e => by subst e; exact Bool.noConfusion (h.symm.trans hx)

/-- One `strtoul(..., 16)` on a hex digit group followed by nothing or
by a colon converts exactly the group. -/
theorem scanHex16_spec {g r : List Char} (hne : g ≠ [])
    (hg : ∀ c ∈ g, isHexDigitC c = true)
    (hr : r = [] ∨ ∃ r2, r = ':' :: r2) (hv : hexVal g ≤ 65535) :
    scanHex16 (g ++ r) = some (hexVal g, r) := by
  obtain ⟨c, t, rfl⟩ := List.exists_cons_of_ne_nil hne
  have hc : isHexDigitC c = true := hg c (by simp)
  have hsp : ((c :: t) ++ r).dropWhile isSpaceC = c :: (t ++ r) := by
    simp [List.dropWhile_cons, hex_not_space hc]
  have htw : (c :: (t ++ r)).takeWhile isHexDigitC = c :: t := by
    rw [← List.cons_append, takeWhile_append_all hg]
    rcases hr with rfl | ⟨r2, rfl⟩
    · simp
    · rw [takeWhile_head_false (fun x hx => by
        simp only [List.head?_cons, Option.some.injEq] at hx; subst hx; decide)]
      simp
  have hdw : (c :: (t ++ r)).dropWhile isHexDigitC = r := by
    rw [← List.cons_append, dropWhile_append_all hg]
    rcases hr with rfl | ⟨r2, rfl⟩
    · simp
    · rw [dropWhile_head_false (fun x hx => by
        simp only [List.head?_cons, Option.some.injEq] at hx; subst hx; decide)]
  have hx : has_0x (c :: (t ++ r)) = false := by
    cases t with
    | nil =>
      rcases hr with rfl | ⟨r2, rfl⟩
      · rfl
      · simp [has_0x]
    | cons c1 t2 =>
      have hc1 : isHexDigitC c1 = true := hg c1 (by simp)
      have hx1 : ¬ c1 = 'x' := hex_ne_char hc1 (by decide)
      have hx2 : ¬ c1 = 'X' := hex_ne_char hc1 (by decide)
      simp [has_0x, hx1, hx2]
  have hfin : hexFinish false (hexVal (c :: t)) = hexVal (c :: t) := by
    simp only [hexFinish, applyNeg, Bool.false_eq_true, if_false, usat, Nat.min_def]
    rw [if_pos (le_trans hv (by norm_num))]
  rw [scanHex16, hsp]
  simp only [hex_ne_char hc (show isHexDigitC '-' = false by decide), if_false,
    hex_ne_char hc (show isHexDigitC '+' = false by decide), ite_false]
  rw [scan_hex_digits]
  simp only [hx, Bool.false_eq_true, if_false, htw, hdw]
  have hcne : ¬ (c :: t) = [] := by simp
  simp [hcne, hfin]


theorem parse_groups_last {g : List Char} (hne : g ≠ [])
    (hg : ∀ c ∈ g, isHexDigitC c = true) (hv : hexVal g ≤ 65535)
    (fuel : Nat) (acc : List Nat) :
    parse_groups (fuel + 1) g acc = some (acc ++ [hexVal g]) := by
  obtain ⟨c, t, rfl⟩ := List.exists_cons_of_ne_nil hne
  have hs : scanHex16 (c :: t) = some (hexVal (c :: t), []) := by
    have h0 := scanHex16_spec (g := c :: t) (r := []) (by simp) hg (Or.inl rfl) hv
    simpa using h0
  simp [parse_groups, hs, show ¬ 65535 < hexVal (c :: t) from by omega]

theorem parse_groups_step {g tail : List Char} (hne : g ≠ [])
    (hg : ∀ c ∈ g, isHexDigitC c = true) (hv : hexVal g ≤ 65535)
    (fuel : Nat) (acc : List Nat) :
    parse_groups (fuel + 1) (g ++ ':' :: tail) acc =
      parse_groups fuel tail (acc ++ [hexVal g]) := by
  have hs := scanHex16_spec hne hg (Or.inr ⟨tail, rfl⟩) hv
  obtain ⟨c, t, rfl⟩ := List.exists_cons_of_ne_nil hne
  simp only [List.cons_append] at hs ⊢
  simp [parse_groups, hs, show ¬ 65535 < hexVal (c :: t) from by omega]

theorem parse_groups_join : ∀ (gs : List (List Char)) (fuel : Nat) (acc : List Nat),
    gs ≠ [] →
    (∀ g ∈ gs, g ≠ [] ∧ (∀ c ∈ g, isHexDigitC c = true) ∧ hexVal g ≤ 65535) →
    gs.length ≤ fuel →
    parse_groups fuel (colon_join gs) acc = some (acc ++ gs.map hexVal) := by
  intro gs
  induction gs with
  | nil => intro _ _ h; exact absurd rfl h
  | cons g gs ih =>
    intro fuel acc _ hall hlen
    obtain ⟨hg1, hg2, hg3⟩ := hall g (by simp)
    cases gs with
    | nil =>
      cases fuel with
      | zero => simp at hlen
      | succ f =>
        rw [show colon_join [g] = g from rfl, parse_groups_last hg1 hg2 hg3]
        simp
    | cons g2 gs2 =>
      cases fuel with
      | zero => simp at hlen
      | succ f =>
        rw [show colon_join (g :: g2 :: gs2) = g ++ ':' :: colon_join (g2 :: gs2) from rfl]
        rw [parse_groups_step hg1 hg2 hg3]
        rw [ih f (acc ++ [hexVal g]) (by simp)
          (fun x hx => hall x (by simp [hx]))
          (by simp at hlen ⊢; omega)]
        simp

theorem find_dc_append {g : List Char} (hg : ∀ c ∈ g, ¬ c = ':') (l : List Char) :
    find_double_colon (g ++ l) = (find_double_colon l).map (· + g.length) := by
  induction g with
  | nil =>
    simp only [List.nil_append, List.length_nil]
    cases find_double_colon l <;> simp
  | cons c g2 ih =>
    have hc : ¬ c = ':' := hg c (by simp)
    cases hgl : g2 ++ l with
    | nil =>
      obtain ⟨hg2, hl⟩ := List.append_eq_nil.mp hgl
      subst hg2; subst hl
      simp [find_double_colon]
    | cons b t =>
      rw [show (c :: g2) ++ l = c :: (g2 ++ l) from rfl, hgl]
      rw [find_double_colon]
      rw [if_neg (fun h => hc h.1)]
      rw [← hgl, ih (fun x hx => hg x (by simp [hx]))]
      cases find_double_colon l with
      | none => simp
      | some v => simp; omega

theorem find_dc_none_of_no_colon {g : List Char} (hg : ∀ c ∈ g, ¬ c = ':') :
    find_double_colon g = none := by
  have h0 := find_dc_append hg []
  simpa using h0

theorem colon_join_ne_nil : ∀ (gs : List (List Char)), gs ≠ [] →
    (∀ g ∈ gs, g ≠ []) → colon_join gs ≠ [] := by
  intro gs hne hall
  cases gs with
  | nil => exact absurd rfl hne
  | cons g gs2 =>
    cases gs2 with
    | nil => exact hall g (by simp)
    | cons g2 gs3 =>
      rw [show colon_join (g :: g2 :: gs3) = g ++ ':' :: colon_join (g2 :: gs3) from rfl]
      simp

theorem find_dc_join : ∀ (gs : List (List Char)), gs ≠ [] →
    (∀ g ∈ gs, g ≠ [] ∧ (∀ c ∈ g, isHexDigitC c = true)) →
    find_double_colon (colon_join gs) = none := by
  intro gs
  induction gs with
  | nil => intro h; exact absurd rfl h
  | cons g gs ih =>
    intro _ hall
    have hgcol : ∀ c ∈ g, ¬ c = ':' := fun c hc =>
      hex_ne_char ((hall g (by simp)).2 c hc) (by decide)
    cases gs with
    | nil => exact find_dc_none_of_no_colon hgcol
    | cons g2 gs2 =>
      rw [show colon_join (g :: g2 :: gs2) = g ++ ':' :: colon_join (g2 :: gs2) from rfl]
      rw [find_dc_append hgcol]
      obtain ⟨c2, t2, hc2⟩ := List.exists_cons_of_ne_nil (hall g2 (by simp)).1
      have hc2ne : ¬ c2 = ':' :=
        hex_ne_char ((hall g2 (by simp)).2 c2 (by simp [hc2])) (by decide)
      have hcons : ∃ X, colon_join (g2 :: gs2) = c2 :: X := by
        cases gs2 with
        | nil => exact ⟨t2, by simp [colon_join, hc2]⟩
        | cons g3 gs3 =>
          refine ⟨t2 ++ ':' :: colon_join (g3 :: gs3), ?_⟩
          rw [show colon_join (g2 :: g3 :: gs3) = g2 ++ ':' :: colon_join (g3 :: gs3) from rfl,
            hc2]
          rfl
      obtain ⟨X, hX⟩ := hcons
      rw [hX, find_double_colon, if_neg (fun h => hc2ne h.2), ← hX]
      rw [ih (by simp) (fun x hx => hall x (by simp [hx]))]
      rfl

theorem find_dc_join_cc : ∀ (gs : List (List Char)) (r : List Char), gs ≠ [] →
    (∀ g ∈ gs, g ≠ [] ∧ (∀ c ∈ g, isHexDigitC c = true)) →
    find_double_colon (colon_join gs ++ ':' :: ':' :: r) =
      some (colon_join gs).length := by
  intro gs
  induction gs with
  | nil => intro r h; exact absurd rfl h
  | cons g gs ih =>
    intro r _ hall
    have hgcol : ∀ c ∈ g, ¬ c = ':' := fun c hc =>
      hex_ne_char ((hall g (by simp)).2 c hc) (by decide)
    cases gs with
    | nil =>
      rw [show colon_join [g] = g from rfl]
      rw [find_dc_append hgcol]
      rw [show find_double_colon (':' :: ':' :: r) = some 0 from by
        rw [find_double_colon]; simp]
      simp
    | cons g2 gs2 =>
      rw [show colon_join (g :: g2 :: gs2) = g ++ ':' :: colon_join (g2 :: gs2) from rfl]
      rw [show (g ++ ':' :: colon_join (g2 :: gs2)) ++ ':' :: ':' :: r =
        g ++ ':' :: (colon_join (g2 :: gs2) ++ ':' :: ':' :: r) from by simp]
      rw [find_dc_append hgcol]
      obtain ⟨c2, t2, hc2⟩ := List.exists_cons_of_ne_nil (hall g2 (by simp)).1
      have hc2ne : ¬ c2 = ':' :=
        hex_ne_char ((hall g2 (by simp)).2 c2 (by simp [hc2])) (by decide)
      have hcons : ∃ X, colon_join (g2 :: gs2) ++ ':' :: ':' :: r = c2 :: X := by
        cases gs2 with
        | nil => exact ⟨t2 ++ ':' :: ':' :: r, by simp [colon_join, hc2]⟩
        | cons g3 gs3 =>
          refine ⟨(t2 ++ ':' :: colon_join (g3 :: gs3)) ++ ':' :: ':' :: r, ?_⟩
          rw [show colon_join (g2 :: g3 :: gs3) = g2 ++ ':' :: colon_join (g3 :: gs3) from rfl,
            hc2]
          simp
      obtain ⟨X, hX⟩ := hcons
      rw [hX, find_double_colon, if_neg (fun h => hc2ne h.2), ← hX]
      rw [ih r (by simp) (fun x hx => hall x (by simp [hx]))]
      simp [List.length_append]
      omega

/-- C8 (amended): groups are scanned `strtoul`-style with the value
bound 0xFFFF checked per scanned group (so a group may carry more than
four hex digits when leading zeros keep its value in range); without a
`::` the parser needs at least eight groups but ignores everything after
the eighth group's separating colon (see the counterexample), and every
canonical string of exactly eight nonempty hex groups with in-range
values is accepted with the groups stored big-endian; with a `::` the
scanned left plus right group counts must stay at most 7: eight explicit
groups next to a `::` on either side are rejected. -/
theorem ipv6_parser_grammar :
    (∀ gs : List (List Char), gs.length = 8 →
      (∀ g ∈ gs, g ≠ [] ∧ (∀ c ∈ g, isHexDigitC c = true) ∧ hexVal g ≤ 65535) →
      parse_ipv6_address (String.mk (colon_join gs)) =
        some (ipv6_bytes (gs.map hexVal) [])) ∧
    (∀ gs : List (List Char), gs.length = 8 →
      (∀ g ∈ gs, g ≠ [] ∧ (∀ c ∈ g, isHexDigitC c = true) ∧ hexVal g ≤ 65535) →
      parse_ipv6_address (String.mk (colon_join gs ++ [':', ':'])) = none) ∧
    (∀ gs : List (List Char), gs.length = 8 →
      (∀ g ∈ gs, g ≠ [] ∧ (∀ c ∈ g, isHexDigitC c = true) ∧ hexVal g ≤ 65535) →
      parse_ipv6_address (String.mk (':' :: ':' :: colon_join gs)) = none) := by
  refine ⟨?_, ?_, ?_⟩
  · intro gs hlen hall
    have hne : gs ≠ [] := by intro h; subst h; simp at hlen
    have hdc := find_dc_join gs hne (fun g hg => ⟨(hall g hg).1, (hall g hg).2.1⟩)
    have hpg := parse_groups_join gs 8 [] hne hall (by omega)
    simp only [parse_ipv6_address, hdc, hpg]
    simp [List.length_map, hlen]
  · intro gs hlen hall
    have hne : gs ≠ [] := by intro h; subst h; simp at hlen
    have hnn := colon_join_ne_nil gs hne (fun g hg => (hall g hg).1)
    have hdc := find_dc_join_cc gs [] hne (fun g hg => ⟨(hall g hg).1, (hall g hg).2.1⟩)
    have hpg := parse_groups_join gs 8 [] hne hall (by omega)
    have hL0 : ¬ (colon_join gs).length = 0 := by
      simpa [List.length_eq_zero] using hnn
    have htk : (colon_join gs ++ [':', ':']).take (colon_join gs).length = colon_join gs :=
      List.take_left ..
    have hdr : (colon_join gs ++ [':', ':']).drop ((colon_join gs).length + 2) = [] :=
      List.drop_eq_nil_of_le (by simp)
    simp only [parse_ipv6_address, hdc, if_neg hL0, htk, hpg, hdr]
    simp [List.length_map, hlen]
  · intro gs hlen hall
    have hne : gs ≠ [] := by intro h; subst h; simp at hlen
    have hnn := colon_join_ne_nil gs hne (fun g hg => (hall g hg).1)
    have hpg := parse_groups_join gs 8 [] hne hall (by omega)
    have hdc : find_double_colon (':' :: ':' :: colon_join gs) = some 0 := by
      rw [find_double_colon]; simp
    simp only [parse_ipv6_address, hdc, if_pos rfl, List.drop_succ_cons, List.drop_zero]
    simp only [if_neg hnn, hpg]
    simp [List.length_map, hlen]

/-- Witness for the IPv6 grammar theorem at the eight groups of
`1:2:3:4:5:6:7:89ab` in the three shapes. -/
theorem ipv6_parser_grammar_witness :
    parse_ipv6_address (String.mk (colon_join [['1'], ['2'], ['3'], ['4'], ['5'], ['6'],
        ['7'], ['8', '9', 'a', 'b']])) =
      some (ipv6_bytes ([['1'], ['2'], ['3'], ['4'], ['5'], ['6'], ['7'],
        ['8', '9', 'a', 'b']].map hexVal) []) ∧
    parse_ipv6_address (String.mk (colon_join [['1'], ['2'], ['3'], ['4'], ['5'], ['6'],
        ['7'], ['8', '9', 'a', 'b']] ++ [':', ':'])) = none ∧
    parse_ipv6_address (String.mk (':' :: ':' :: colon_join [['1'], ['2'], ['3'], ['4'],
        ['5'], ['6'], ['7'], ['8', '9', 'a', 'b']])) = none :=
  ⟨ipv6_parser_grammar.1 [['1'], ['2'], ['3'], ['4'], ['5'], ['6'], ['7'],
      ['8', '9', 'a', 'b']] (by decide) (by decide),
   ipv6_parser_grammar.2.1 [['1'], ['2'], ['3'], ['4'], ['5'], ['6'], ['7'],
      ['8', '9', 'a', 'b']] (by decide) (by decide),
   ipv6_parser_grammar.2.2 [['1'], ['2'], ['3'], ['4'], ['5'], ['6'], ['7'],
      ['8', '9', 'a', 'b']] (by decide) (by decide)⟩

/-! ## Comparator lemmas -/

theorem memcmp_bytes_self (l : List Nat) : memcmp_bytes l l = 0 := by
  induction l with
  | nil => rfl
  | cons x xs ih => simp [memcmp_bytes, ih]

theorem memcmp_bytes_antisym (a : List Nat) : ∀ b : List Nat,
    memcmp_bytes a b = - memcmp_bytes b a := by
  induction a with
  | nil => intro b; cases b <;> rfl
  | cons x xs ih =>
    intro b
    cases b with
    | nil => rfl
    | cons y ys =>
      simp only [memcmp_bytes]
      split_ifs <;> first | exact ih ys | omega

theorem memcmp_bytes_eq (a : List Nat) : ∀ b : List Nat, a.length = b.length →
    memcmp_bytes a b = 0 → a = b := by
  induction a with
  | nil => intro b hlen _; cases b with
    | nil => rfl
    | cons y ys => simp at hlen
  | cons x xs ih =>
    intro b hlen h
    cases b with
    | nil => simp at hlen
    | cons y ys =>
      simp only [memcmp_bytes] at h
      rcases Nat.lt_trichotomy x y with hl | hl | hl
      · rw [if_pos hl] at h; norm_num at h
      · subst hl
        rw [if_neg (by omega), if_neg (by omega)] at h
        rw [ih ys (by simpa using hlen) h]
      · rw [if_neg (by omega), if_pos hl] at h; norm_num at h

theorem memcmp_bytes_range (a : List Nat) : ∀ b : List Nat,
    memcmp_bytes a b = -1 ∨ memcmp_bytes a b = 0 ∨ memcmp_bytes a b = 1 := by
  induction a with
  | nil => intro b; cases b <;> exact Or.inr (Or.inl rfl)
  | cons x xs ih =>
    intro b
    cases b with
    | nil => exact Or.inr (Or.inl rfl)
    | cons y ys =>
      simp only [memcmp_bytes]
      split_ifs <;> first | exact ih ys | simp

theorem memcmp_bytes_le_trans (a : List Nat) : ∀ b c : List Nat,
    a.length = b.length → b.length = c.length →
    memcmp_bytes a b ≤ 0 → memcmp_bytes b c ≤ 0 → memcmp_bytes a c ≤ 0 := by
  induction a with
  | nil => intro b c _ _ _ _; cases c <;> exact le_refl 0
  | cons x xs ih =>
    intro b c hab hbc h1 h2
    cases b with
    | nil => simp at hab
    | cons y ys =>
      cases c with
      | nil => simp at hbc
      | cons z zs =>
        have hxy : x ≤ y := by
          by_contra hgt
          rw [show memcmp_bytes (x :: xs) (y :: ys) =
            (if x < y then (-1 : Int) else if y < x then 1 else memcmp_bytes xs ys)
            from rfl] at h1
          rw [if_neg (by omega), if_pos (by omega)] at h1
          norm_num at h1
        have hyz : y ≤ z := by
          by_contra hgt
          rw [show memcmp_bytes (y :: ys) (z :: zs) =
            (if y < z then (-1 : Int) else if z < y then 1 else memcmp_bytes ys zs)
            from rfl] at h2
          rw [if_neg (by omega), if_pos (by omega)] at h2
          norm_num at h2
        simp only [memcmp_bytes]
        rcases Nat.lt_or_ge x z with hxz | hxz
        · rw [if_pos hxz]; norm_num
        · have hxez : x = z := by omega
          have hxey : x = y := by omega
          have hyez : y = z := by omega
          subst hxey; subst hyez
          rw [if_neg (by omega), if_neg (by omega)]
          simp only [memcmp_bytes, if_neg (lt_irrefl x)] at h1 h2
          exact ih ys zs (by simpa using hab) (by simpa using hbc) h1 h2

/-- Deserializing a serialized in-range address recovers it. -/
theorem deser_ser (a m f fl : Nat) (ha : a < 2 ^ 32) :
    deserAddr4 (serialize4 a m f fl) = a := by
  show a / 16777216 % 256 * 16777216 + a / 65536 % 256 * 65536 + a / 256 % 256 * 256 +
    a % 256 = a
  norm_num at ha
  omega

theorem serialize4_length (a m f fl : Nat) : (serialize4 a m f fl).length = 7 := rfl

theorem serialize4_getD4 (a m f fl : Nat) : (serialize4 a m f fl).getD 4 0 = m := rfl

theorem pair7_trans (x1 y1 x2 y2 x3 y3 : Nat)
    (h12 : (if x1 ≠ x2 then (if x1 < x2 then (-1 : Int) else 1)
           else if y1 ≠ y2 then (if y1 < y2 then (-1 : Int) else 1) else 0) ≤ 0)
    (h23 : (if x2 ≠ x3 then (if x2 < x3 then (-1 : Int) else 1)
           else if y2 ≠ y3 then (if y2 < y3 then (-1 : Int) else 1) else 0) ≤ 0) :
    (if x1 ≠ x3 then (if x1 < x3 then (-1 : Int) else 1)
     else if y1 ≠ y3 then (if y1 < y3 then (-1 : Int) else 1) else 0) ≤ 0 := by
  split_ifs at h12 h23 ⊢ <;> omega

theorem cmp19_trans (t1 t2 t3 : List Nat) (n1 n2 n3 : Nat)
    (l12 : t1.length = t2.length) (l23 : t2.length = t3.length)
    (h12 : (if memcmp_bytes t1 t2 ≠ 0 then (if memcmp_bytes t1 t2 < 0 then (-1 : Int) else 1)
            else if n1 ≠ n2 then (if n1 < n2 then (-1 : Int) else 1) else 0) ≤ 0)
    (h23 : (if memcmp_bytes t2 t3 ≠ 0 then (if memcmp_bytes t2 t3 < 0 then (-1 : Int) else 1)
            else if n2 ≠ n3 then (if n2 < n3 then (-1 : Int) else 1) else 0) ≤ 0) :
    (if memcmp_bytes t1 t3 ≠ 0 then (if memcmp_bytes t1 t3 < 0 then (-1 : Int) else 1)
     else if n1 ≠ n3 then (if n1 < n3 then (-1 : Int) else 1) else 0) ≤ 0 := by
  rcases memcmp_bytes_range t1 t2 with ha | ha | ha
  · rcases memcmp_bytes_range t2 t3 with hb | hb | hb
    · have h13le : memcmp_bytes t1 t3 ≤ 0 :=
        memcmp_bytes_le_trans t1 t2 t3 l12 l23 (by rw [ha]; norm_num) (by rw [hb]; norm_num)
      have h13ne : ¬ memcmp_bytes t1 t3 = 0 := by
        intro h0
        have heq := memcmp_bytes_eq t1 t3 (l12.trans l23) h0
        rw [← heq] at hb
        have hs := memcmp_bytes_antisym t2 t1
        rw [hb, ha] at hs
        norm_num at hs
      rw [if_pos h13ne, if_pos (by omega)]
      norm_num
    · have heq := memcmp_bytes_eq t2 t3 l23 hb
      rw [← heq]
      rw [if_pos (by rw [ha]; norm_num), if_pos (by rw [ha]; norm_num)]
      norm_num
    · rw [if_pos (by rw [hb]; norm_num), if_neg (by rw [hb]; norm_num)] at h23
      norm_num at h23
  · have heq := memcmp_bytes_eq t1 t2 l12 ha
    subst heq
    rw [if_neg (by rw [memcmp_bytes_self]; simp)] at h12
    rcases memcmp_bytes_range t1 t3 with hb | hb | hb
    · rw [if_pos (by rw [hb]; norm_num), if_pos (by rw [hb]; norm_num)]
      norm_num
    · rw [if_neg (by rw [hb]; simp)]
      rw [if_neg (by rw [hb]; simp)] at h23
      split_ifs at h12 h23 ⊢ <;> omega
    · rw [if_pos (by rw [hb]; norm_num), if_neg (by rw [hb]; norm_num)] at h23
      norm_num at h23
  · rw [if_pos (by rw [ha]; norm_num), if_neg (by rw [ha]; norm_num)] at h12
    norm_num at h12

theorem fallback_le (d1 d2 : List Nat)
    (h : (if memcmp_bytes d1 d2 = 0 then (0 : Int)
          else if memcmp_bytes d1 d2 < 0 then -1 else 1) ≤ 0) :
    memcmp_bytes d1 d2 ≤ 0 := by
  rcases memcmp_bytes_range d1 d2 with ha | ha | ha
  · omega
  · omega
  · exfalso
    rw [if_neg (by omega), if_neg (by omega)] at h
    norm_num at h

theorem fallback_trans (d1 d2 d3 : List Nat)
    (l12 : d1.length = d2.length) (l23 : d2.length = d3.length)
    (h12 : (if memcmp_bytes d1 d2 = 0 then (0 : Int)
            else if memcmp_bytes d1 d2 < 0 then -1 else 1) ≤ 0)
    (h23 : (if memcmp_bytes d2 d3 = 0 then (0 : Int)
            else if memcmp_bytes d2 d3 < 0 then -1 else 1) ≤ 0) :
    (if memcmp_bytes d1 d3 = 0 then (0 : Int)
     else if memcmp_bytes d1 d3 < 0 then -1 else 1) ≤ 0 := by
  have m13 := memcmp_bytes_le_trans d1 d2 d3 l12 l23 (fallback_le _ _ h12) (fallback_le _ _ h23)
  split_ifs <;> omega

theorem cmp_cidr_refl (d : List Nat) : cmp_cidr d d = 0 := by
  simp only [cmp_cidr]
  rw [if_neg (by omega)]
  by_cases h7 : d.length = 7
  · rw [if_pos h7]; simp
  · rw [if_neg h7]
    by_cases h19 : d.length = 19
    · rw [if_pos h19, memcmp_bytes_self]; simp
    · rw [if_neg h19, memcmp_bytes_self]; simp

theorem cmp_cidr_antisym (d1 d2 : List Nat) : cmp_cidr d1 d2 = - cmp_cidr d2 d1 := by
  simp only [cmp_cidr]
  by_cases hlen : d1.length = d2.length
  · rw [if_neg (show ¬ (d1.length ≠ d2.length) by omega),
      if_neg (show ¬ (d2.length ≠ d1.length) by omega)]
    by_cases h7 : d1.length = 7
    · rw [if_pos h7, if_pos (show d2.length = 7 by omega)]
      split_ifs <;> omega
    · rw [if_neg h7, if_neg (show ¬ d2.length = 7 by omega)]
      by_cases h19 : d1.length = 19
      · rw [if_pos h19, if_pos (show d2.length = 19 by omega)]
        have hs := memcmp_bytes_antisym (d2.take 16) (d1.take 16)
        rcases memcmp_bytes_range (d1.take 16) (d2.take 16) with ha | ha | ha <;>
          (rw [ha] at hs; norm_num at hs; rw [ha, hs]) <;> split_ifs <;>
          first | exact False.elim (by assumption) | omega
      · rw [if_neg h19, if_neg (show ¬ d2.length = 19 by omega)]
        have hs := memcmp_bytes_antisym d2 d1
        rcases memcmp_bytes_range d1 d2 with ha | ha | ha <;>
          (rw [ha] at hs; norm_num at hs; rw [ha, hs]) <;> split_ifs <;>
          first | exact False.elim (by assumption) | omega
  · rw [if_pos (show d1.length ≠ d2.length from hlen),
      if_pos (show d2.length ≠ d1.length by omega)]
    split_ifs <;> omega

theorem cmp_cidr_le_trans (d1 d2 d3 : List Nat) (h12 : cmp_cidr d1 d2 ≤ 0)
    (h23 : cmp_cidr d2 d3 ≤ 0) : cmp_cidr d1 d3 ≤ 0 := by
  simp only [cmp_cidr] at h12 h23 ⊢
  by_cases e12 : d1.length = d2.length
  · rw [if_neg (by omega)] at h12
    by_cases e23 : d2.length = d3.length
    · rw [if_neg (by omega)] at h23
      rw [if_neg (by omega)]
      by_cases h7 : d1.length = 7
      · rw [if_pos h7] at h12 ⊢
        rw [if_pos (by omega)] at h23
        exact pair7_trans _ _ _ _ _ _ h12 h23
      · rw [if_neg h7] at h12 ⊢
        rw [if_neg (by omega)] at h23
        by_cases h19 : d1.length = 19
        · rw [if_pos h19] at h12 ⊢
          rw [if_pos (by omega)] at h23
          exact cmp19_trans _ _ _ _ _ _ (by simp [List.length_take, e12])
            (by simp [List.length_take, e23]) h12 h23
        · rw [if_neg h19] at h12 ⊢
          rw [if_neg (by omega)] at h23
          exact fallback_trans _ _ _ e12 e23 h12 h23
    · rw [if_pos (by omega)] at h23
      have hlt : d2.length < d3.length := by
        by_contra hge
        rw [if_neg (by omega)] at h23
        norm_num at h23
      rw [if_pos (by omega), if_pos (by omega)]
      norm_num
  · rw [if_pos (by omega)] at h12
    have hlt12 : d1.length < d2.length := by
      by_contra hge
      rw [if_neg (by omega)] at h12
      norm_num at h12
    by_cases e23 : d2.length = d3.length
    · rw [if_pos (by omega), if_pos (by omega)]
      norm_num
    · rw [if_pos (by omega)] at h23
      have hlt23 : d2.length < d3.length := by
        by_contra hge
        rw [if_neg (by omega)] at h23
        norm_num at h23
      rw [if_pos (by omega), if_pos (by omega)]
      norm_num

theorem rec19_length (bytes : List Nat) (m f fl : Nat) (hb : bytes.length = 16) :
    (bytes ++ [m, f, fl]).length = 19 := by simp [hb]

theorem rec19_take (bytes X : List Nat) (hb : bytes.length = 16) :
    (bytes ++ X).take 16 = bytes := by
  rw [← hb]; exact List.take_left ..

theorem rec19_getD (bytes : List Nat) (m f fl : Nat) (hb : bytes.length = 16) :
    (bytes ++ [m, f, fl]).getD 16 0 = m := by
  rw [List.getD_append_right _ _ _ _ (by omega), hb]
  simp

theorem cmp_wf4_eq {fl : Nat} {r1 r2 : List Nat} (h1 : WF4 fl r1) (h2 : WF4 fl r2)
    (h : cmp_cidr r1 r2 = 0) : r1 = r2 := by
  obtain ⟨a1, m1, ha1, _, rfl⟩ := h1
  obtain ⟨a2, m2, ha2, _, rfl⟩ := h2
  simp only [cmp_cidr, serialize4_length] at h
  rw [if_neg (show ¬ (7 : Nat) ≠ 7 by omega), if_pos trivial,
    deser_ser _ _ _ _ ha1, deser_ser _ _ _ _ ha2,
    serialize4_getD4, serialize4_getD4] at h
  have haa : a1 = a2 := by
    by_contra hne
    rw [if_pos hne] at h
    split_ifs at h
    all_goals norm_num at h
  subst haa
  have hmm2 : m1 = m2 := by
    by_contra hne
    rw [if_neg (by omega), if_pos hne] at h
    split_ifs at h
    all_goals norm_num at h
  subst hmm2
  rfl

theorem cmp_wf19_eq {fl : Nat} {r1 r2 : List Nat} (h1 : WF19 fl r1) (h2 : WF19 fl r2)
    (h : cmp_cidr r1 r2 = 0) : r1 = r2 := by
  obtain ⟨b1, m1, hb1, _, _, rfl⟩ := h1
  obtain ⟨b2, m2, hb2, _, _, rfl⟩ := h2
  simp only [cmp_cidr, rec19_length _ _ _ _ hb1, rec19_length _ _ _ _ hb2] at h
  rw [if_neg (show ¬ (19 : Nat) ≠ 19 by omega), if_neg (show ¬ (19 : Nat) = 7 by omega),
    if_pos trivial, rec19_take _ _ hb1, rec19_take _ _ hb2,
    rec19_getD _ _ _ _ hb1, rec19_getD _ _ _ _ hb2] at h
  have hbb : memcmp_bytes b1 b2 = 0 := by
    by_contra hne
    rw [if_pos hne] at h
    split_ifs at h
    all_goals norm_num at h
  have heq := memcmp_bytes_eq b1 b2 (by rw [hb1, hb2]) hbb
  subst heq
  rw [memcmp_bytes_self, if_neg (by simp)] at h
  have hm : m1 = m2 := by
    by_contra hne
    rw [if_pos hne] at h
    split_ifs at h
    all_goals norm_num at h
  subst hm
  rfl

/-- C4: the comparator is a total order on well-formed records.  It is
reflexive on every buffer; its sign flips when the arguments swap (on
every pair of buffers); on well-formed records of the same family and
variant, comparing equal forces the records to be identical; it is
transitive on all buffers; every IPv4-width (7-byte) record sorts
strictly before every IPv6-width (19-byte) record whatever the address
bytes; within a family the address — packed most significant first — is
compared before the prefix; and on equal addresses the shorter prefix
sorts first. -/
theorem cmp_cidr_total_order :
    (∀ d : List Nat, cmp_cidr d d = 0) ∧
    (∀ d1 d2 : List Nat, cmp_cidr d1 d2 = - cmp_cidr d2 d1) ∧
    (∀ (fl : Nat) (r1 r2 : List Nat),
      (WF4 fl r1 ∧ WF4 fl r2) ∨ (WF19 fl r1 ∧ WF19 fl r2) →
      cmp_cidr r1 r2 = 0 → r1 = r2) ∧
    (∀ d1 d2 d3 : List Nat, cmp_cidr d1 d2 ≤ 0 → cmp_cidr d2 d3 ≤ 0 → cmp_cidr d1 d3 ≤ 0) ∧
    (∀ r1 r2 : List Nat, r1.length = 7 → r2.length = 19 → cmp_cidr r1 r2 = -1) ∧
    (∀ fl a1 m1 a2 m2 : Nat, a1 < 2 ^ 32 → a2 < 2 ^ 32 → a1 < a2 →
      cmp_cidr (serialize4 a1 m1 2 fl) (serialize4 a2 m2 2 fl) = -1) ∧
    (∀ fl a m1 m2 : Nat, a < 2 ^ 32 → m1 < m2 →
      cmp_cidr (serialize4 a m1 2 fl) (serialize4 a m2 2 fl) = -1) ∧
    (∀ (fl m1 m2 : Nat) (b1 b2 : List Nat), b1.length = 16 → b2.length = 16 →
      memcmp_bytes b1 b2 = -1 →
      cmp_cidr (b1 ++ [m1, 10, fl]) (b2 ++ [m2, 10, fl]) = -1) ∧
    (∀ (fl m1 m2 : Nat) (b : List Nat), b.length = 16 → m1 < m2 →
      cmp_cidr (b ++ [m1, 10, fl]) (b ++ [m2, 10, fl]) = -1) := by
  refine ⟨cmp_cidr_refl, cmp_cidr_antisym, ?_, cmp_cidr_le_trans, ?_, ?_, ?_, ?_, ?_⟩
  · intro fl r1 r2 hwf h
    rcases hwf with ⟨h1, h2⟩ | ⟨h1, h2⟩
    · exact cmp_wf4_eq h1 h2 h
    · exact cmp_wf19_eq h1 h2 h
  · intro r1 r2 hl1 hl2
    simp only [cmp_cidr, hl1, hl2]
    norm_num
  · intro fl a1 m1 a2 m2 ha1 ha2 hlt
    simp only [cmp_cidr, serialize4_length]
    rw [if_neg (show ¬ (7 : Nat) ≠ 7 by omega), if_pos trivial,
      deser_ser _ _ _ _ ha1, deser_ser _ _ _ _ ha2,
      if_pos (show a1 ≠ a2 by omega), if_pos hlt]
  · intro fl a m1 m2 ha hm
    simp only [cmp_cidr, serialize4_length]
    rw [if_neg (show ¬ (7 : Nat) ≠ 7 by omega), if_pos trivial, deser_ser _ _ _ _ ha,
      deser_ser _ _ _ _ ha, if_neg (show ¬ a ≠ a by omega), serialize4_getD4,
      serialize4_getD4, if_pos (show m1 ≠ m2 by omega), if_pos hm]
  · intro fl m1 m2 b1 b2 hb1 hb2 hmem
    simp only [cmp_cidr, rec19_length _ _ _ _ hb1, rec19_length _ _ _ _ hb2]
    rw [if_neg (show ¬ (19 : Nat) ≠ 19 by omega), if_neg (show ¬ (19 : Nat) = 7 by omega),
      if_pos trivial, rec19_take _ _ hb1, rec19_take _ _ hb2, hmem]
    norm_num
  · intro fl m1 m2 b hb hm
    simp only [cmp_cidr, rec19_length _ _ _ _ hb]
    rw [if_neg (show ¬ (19 : Nat) ≠ 19 by omega), if_neg (show ¬ (19 : Nat) = 7 by omega),
      if_pos trivial, rec19_take _ _ hb, rec19_take _ _ hb, memcmp_bytes_self,
      if_neg (show ¬ (0 : Int) ≠ 0 by omega), rec19_getD _ _ _ _ hb, rec19_getD _ _ _ _ hb,
      if_pos (show m1 ≠ m2 by omega), if_pos hm]

/-- Witness for the comparator total order at concrete records: the
IPv4 record of 10.0.0.0 with the shorter prefix 8 sorts before the same
address with prefix 24, and an IPv4-width record sorts before an
IPv6-width record. -/
theorem cmp_cidr_total_order_witness :
    cmp_cidr (serialize4 167772160 8 2 1) (serialize4 167772160 24 2 1) = -1 ∧
    cmp_cidr [10, 0, 0, 0, 8, 2, 1] [0, 0, 0, 0, 0, 0, 0, 0, 0, 0, 0, 0, 0, 0, 0, 1, 128, 10, 1] = -1 :=
  ⟨cmp_cidr_total_order.2.2.2.2.2.2.1 1 167772160 8 24 (by norm_num) (by norm_num),
   cmp_cidr_total_order.2.2.2.2.1 [10, 0, 0, 0, 8, 2, 1]
     [0, 0, 0, 0, 0, 0, 0, 0, 0, 0, 0, 0, 0, 0, 0, 1, 128, 10, 1] (by decide) (by decide)⟩
